import Mathlib

/-!
Verification of the variable collection and merging engine of the
`shinkansen` file-preprocessing CLI (`src/variables.rs`).

Rust strings (`&str` / `String`) are embedded as `List Char`; byte indices
computed by the Rust code via `char::len_utf8` are modelled with
`Char.utf8Size`, and fallible byte slicing (which panics in Rust when an
index is not a character boundary) is modelled with `Option`-returning
slicing functions.  `tera::Value` is embedded as the inductive `TValue`;
maps (`HashMap` / `tera::Map`) are embedded as association lists whose
`mapInsert` replaces the binding of an existing key in place.
-/

namespace Shinkansen

/-- Rust `&str`, embedded as its character sequence. -/
abbrev Str := List Char

/-- Character list of a Lean string literal (used for concrete inputs). -/
def strL (s : String) : Str := s.data

/-- Total UTF-8 byte length of a string, as Rust `str::len`. -/
def byteLen : Str → Nat
  | [] => 0
  | c :: rest => c.utf8Size + byteLen rest

/-- Drop the first `n` BYTES of a string; `none` when `n` is not a
character boundary (a Rust slicing panic). -/
def dropBytes : Str → Nat → Option Str
  | l, 0 => some l
  | [], _ + 1 => none
  | c :: rest, n + 1 =>
    if c.utf8Size ≤ n + 1 then dropBytes rest (n + 1 - c.utf8Size) else none

/-- Take the first `n` BYTES of a string; `none` when `n` is not a
character boundary (a Rust slicing panic). -/
def takeBytes : Str → Nat → Option Str
  | _, 0 => some []
  | [], _ + 1 => none
  | c :: rest, n + 1 =>
    if c.utf8Size ≤ n + 1 then (takeBytes rest (n + 1 - c.utf8Size)).map (c :: ·)
    else none

/-- Rust `&s[a..b]`: `none` models the panic on a reversed range or a
non-boundary index. -/
def byteSlice (s : Str) (a b : Nat) : Option Str :=
  if a ≤ b then (dropBytes s a).bind (fun t => takeBytes t (b - a)) else none

/-- `serde_json::Number` (`src/config.rs` decodes into `serde_json::Value`):
either an integer for which `as_i64` succeeds, a finite double, or a
non-finite double (`as_i64 = None`, `is_finite() = false`).  A finite
double is embedded exactly as the decimal `m × 10^e` it was written as, in
the canonical form where `m` has no trailing zero (and `0` is `(0, 0)`);
binary `f64` rounding is abstracted away. -/
inductive JNum where
  | int (n : Int)
  | finite (m : Int) (e : Int)
  | nonfinite
deriving DecidableEq

/-- `serde_json::Value`. -/
inductive JValue where
  | null
  | bool (b : Bool)
  | num (n : JNum)
  | str (s : Str)
  | arr (xs : List JValue)
  | obj (kvs : List (Str × JValue))

/-- `tera::Value`, restricted as in the spec's TypedValue: Number is split
into the `Int64` (`i64`-backed) and `Float64` (finite-`f64`-backed) cases,
with `Float64` embedded as the canonical decimal `m × 10^e` (as in
`JNum.finite`). -/
inductive TValue where
  | null
  | bool (b : Bool)
  | int (n : Int)
  | float (m : Int) (e : Int)
  | str (s : Str)
  | arr (xs : List TValue)
  | obj (kvs : List (Str × TValue))

/-- The variable namespace `HashMap<String, tera::Value>` and the nested
`tera::Map<String, tera::Value>`, embedded as an association list. -/
abbrev Namespace := List (Str × TValue)

/-- Key lookup in an association-list map. -/
def mapGet : Namespace → Str → Option TValue
  | [], _ => none
  | (k, v) :: rest, key => if k = key then some v else mapGet rest key

/-- Key insertion: replaces the binding of an existing key in place,
otherwise appends (the observable behavior of `HashMap::insert` /
`tera::Map::insert` under `mapGet`). -/
def mapInsert : Namespace → Str → TValue → Namespace
  | [], key, v => [(key, v)]
  | (k, w) :: rest, key, v =>
    if k = key then (k, v) :: rest else (k, w) :: mapInsert rest key v

/-- Rust `str::split(sep)` for a single-character separator, as used by
`key_path.split('.')` and `env_vars.split(',')`: splits at every
occurrence, keeping empty segments, and never returns an empty list. -/
def splitChar : Str → Char → List Str
  | [], _ => [[]]
  | c :: rest, sep =>
    if c = sep then [] :: splitChar rest sep
    else
      match splitChar rest sep with
      | [] => [[c]]
      | p :: ps => (c :: p) :: ps

/-- Rust `i32::saturating_sub(1)`: saturates at `i32::MIN` (not at zero). -/
def i32SatSubOne (x : Int) : Int := max (x - 1) (-2147483648)

/-- The loop of `split_unescaped` (`src/variables.rs:300-344`).  The source
walks `chars: Vec<char>` with a single index `pos` that is READ as a
character index (`chars[pos]`) but ADVANCED by `ch.len_utf8()` bytes and
also used as a byte index into `s` for slicing; the model preserves this
exactly (`s.get pos` vs `byteSlice`; the source's `ch` binding is inlined
as `s.get ⟨pos, h⟩`).  `fuel` only makes the recursion
structural: `split_unescaped` supplies `s.length + 1`, which is never
exhausted because `pos` grows by at least one per step.  Depth counters
`in_brackets`/`in_braces` are `i32`, decremented with `saturating_sub`;
their increments are modelled as exact (an `i32` overflow would need an
input of 2^31 characters). `none` models a Rust panic. -/
def splitGo (s : Str) (d : Char) :
    Nat → Nat → Nat → Bool → Int → Int → List Str → Option (List Str)
  | 0, _, _, _, _, _, _ => none
  | fuel + 1, pos, cs, esc, bk, br, acc =>
    if h : pos < s.length then
      if esc then
        splitGo s d fuel (pos + (s.get ⟨pos, h⟩).utf8Size) cs false bk br acc
      else if s.get ⟨pos, h⟩ = '\\' then
        splitGo s d fuel (pos + (s.get ⟨pos, h⟩).utf8Size) cs true bk br acc
      else if s.get ⟨pos, h⟩ = '[' then
        splitGo s d fuel (pos + (s.get ⟨pos, h⟩).utf8Size) cs esc (bk + 1) br acc
      else if s.get ⟨pos, h⟩ = ']' then
        splitGo s d fuel (pos + (s.get ⟨pos, h⟩).utf8Size) cs esc (i32SatSubOne bk) br acc
      else if s.get ⟨pos, h⟩ = '{' then
        splitGo s d fuel (pos + (s.get ⟨pos, h⟩).utf8Size) cs esc bk (br + 1) acc
      else if s.get ⟨pos, h⟩ = '}' then
        splitGo s d fuel (pos + (s.get ⟨pos, h⟩).utf8Size) cs esc bk (i32SatSubOne br) acc
      else if s.get ⟨pos, h⟩ = d ∧ bk = 0 ∧ br = 0 then
        match byteSlice s cs pos with
        | none => none
        | some piece =>
          splitGo s d fuel (pos + (s.get ⟨pos, h⟩).utf8Size) (pos + (s.get ⟨pos, h⟩).utf8Size)
            esc bk br (acc ++ [piece])
      else splitGo s d fuel (pos + (s.get ⟨pos, h⟩).utf8Size) cs esc bk br acc
    else
      if cs < byteLen s then (byteSlice s cs (byteLen s)).map (fun piece => acc ++ [piece])
      else if acc = [] then some [s]
      else some acc

/-- `split_unescaped` (`src/variables.rs:300-344`). -/
def split_unescaped (s : Str) (d : Char) : Option (List Str) :=
  splitGo s d (s.length + 1) 0 0 false 0 0 []

/-- `unescape_value` (`src/variables.rs:348-380`). -/
def unescape_value : Str → Str
  | [] => []
  | c :: rest =>
    if c = '\\' then
      match rest with
      | [] => ['\\']
      | next :: rest' =>
        if next = '\\' ∨ next = ',' ∨ next = '=' ∨ next = '[' ∨ next = ']' ∨
            next = '{' ∨ next = '}' then
          next :: unescape_value rest'
        else '\\' :: next :: unescape_value rest'
    else c :: unescape_value rest

/-- The `key_end` scan of `load_cli_variables` (`src/variables.rs:161-177`):
the cumulative UTF-8 byte width of the characters before the first
unescaped `=` (the whole byte length when there is none). -/
def keyEndScan : Str → Bool → Nat
  | [], _ => 0
  | c :: rest, esc =>
    if esc then c.utf8Size + keyEndScan rest false
    else if c = '\\' then c.utf8Size + keyEndScan rest true
    else if c = '=' then 0
    else c.utf8Size + keyEndScan rest esc

/-- Character count corresponding to `keyEndScan` (the byte offsets the
source computes always fall on character boundaries; this is the same scan
counting characters instead of bytes). -/
def keyEndChars : Str → Bool → Nat
  | [], _ => 0
  | c :: rest, esc =>
    if esc then 1 + keyEndChars rest false
    else if c = '\\' then 1 + keyEndChars rest true
    else if c = '=' then 0
    else 1 + keyEndChars rest esc

/-- The error type of the variables module: `ShinkansenError::VariableParseError`
(carrying the offending token), with `sliceFault` standing for a Rust panic
reached through `split_unescaped`. -/
inductive VErr where
  | variableParse (token : Str)
  | sliceFault

/-- The per-token key/value parse of `load_cli_variables`
(`src/variables.rs:159-187`): the whole scan computing `key_end`, the
`key_end == 0 || key_end >= single_var.len()` error test, and the byte
slices `&single_var[..key_end]` / `&single_var[key_end + 1..]` (expressed
at character granularity via `keyEndChars`, which marks the same boundary). -/
def parse_single (sv : Str) : Except VErr (Str × Str) :=
  let key_end := keyEndScan sv false
  if key_end = 0 ∨ key_end ≥ byteLen sv then
    .error (.variableParse sv)
  else
    .ok (sv.take (keyEndChars sv false), sv.drop (keyEndChars sv false + 1))

/-! ### External parsing collaborators

`string_to_tera_value` calls `serde_json::from_str`, `str::parse::<i64>`,
`str::parse::<f64>` and `str::parse::<bool>`; these live outside the
repository, so they are modelled here after their documented grammars.
`f64` values are embedded as exact canonical decimals (`JNum.finite`);
decimal-to-binary rounding, overflow of literals beyond the `f64` range
(`serde_json`'s `number out of range` error, Rust's overflow to infinity)
and underflow to zero are abstracted away — no claim exercises them. JSON
object key ordering and duplicate-key resolution are likewise abstracted
(the claims below only ever look single keys up). -/

/-- JSON whitespace. -/
def isJWs (c : Char) : Bool := c = ' ' ∨ c = '\t' ∨ c = '\n' ∨ c = '\r'

def skipWs (s : Str) : Str := s.dropWhile isJWs

def takeDigits : Str → Str × Str
  | [] => ([], [])
  | c :: rest =>
    if c.isDigit then
      let (ds, r) := takeDigits rest
      (c :: ds, r)
    else ([], c :: rest)

def digitsToNat (ds : Str) : Nat :=
  ds.foldl (fun a c => a * 10 + (c.toNat - '0'.toNat)) 0

/-- Canonical decimal `m × 10^e` from mantissa digits and an exponent:
trailing zero digits are folded into the exponent, and zero is `(0, 0)`. -/
def mkFinite (neg : Bool) (ds : Str) (e : Int) : JNum :=
  let kept := (ds.reverse.dropWhile (· = '0')).reverse
  if kept = [] then .finite 0 0
  else
    let m : Int := digitsToNat kept
    .finite (if neg then -m else m) (e + (ds.length - kept.length : Nat))

/-- JSON number grammar (`-? (0 | [1-9][0-9]*) frac? exp?`), classified as
`serde_json` stores it: integers for which `Number::as_i64` succeeds become
`JNum.int`; everything else becomes a finite double. -/
def parseNumber (s : Str) : Option (JNum × Str) := do
  let (neg, s1) := match s with
    | '-' :: r => (true, r)
    | _ => (false, s)
  let (ids, s2) ← match s1 with
    | '0' :: rest =>
      match rest with
      | d :: _ => if d.isDigit then none else some (['0'], rest)
      | [] => some (['0'], ([] : Str))
    | c :: rest =>
      if c.isDigit then some (takeDigits (c :: rest))
      else none
    | [] => none
  let (fds, s3) ← match s2 with
    | '.' :: rest =>
      let (ds, r) := takeDigits rest
      if ds = [] then none else some (ds, r)
    | _ => some (([] : Str), s2)
  let (hasExp, e, s4) ← match s3 with
    | c :: rest =>
      if c = 'e' ∨ c = 'E' then
        let (es, rest1) := match rest with
          | '+' :: r => ((1 : Int), r)
          | '-' :: r => ((-1 : Int), r)
          | _ => ((1 : Int), rest)
        let (ds, r) := takeDigits rest1
        if ds = [] then none else some (true, es * digitsToNat ds, r)
      else some (false, (0 : Int), c :: rest)
    | [] => some (false, (0 : Int), ([] : Str))
  if fds = [] ∧ hasExp = false then
    let n : Int := if neg then -(digitsToNat ids : Int) else (digitsToNat ids : Int)
    if -(2 ^ 63) ≤ n ∧ n ≤ 2 ^ 63 - 1 then some (.int n, s4)
    else some (mkFinite neg ids 0, s4)
  else
    some (mkFinite neg (ids ++ fds) (e - fds.length), s4)

def hexVal (c : Char) : Option Nat :=
  if '0' ≤ c ∧ c ≤ '9' then some (c.toNat - '0'.toNat)
  else if 'a' ≤ c ∧ c ≤ 'f' then some (c.toNat - 'a'.toNat + 10)
  else if 'A' ≤ c ∧ c ≤ 'F' then some (c.toNat - 'A'.toNat + 10)
  else none

/-- JSON string body (after the opening quote): escapes per RFC 8259;
`\uXXXX` is taken as a single code point (surrogate pairing abstracted). -/
def parseJString : Str → Option (Str × Str)
  | [] => none
  | '"' :: rest => some ([], rest)
  | '\\' :: e :: rest =>
    match e with
    | '"' => (parseJString rest).map (fun p => ('"' :: p.1, p.2))
    | '\\' => (parseJString rest).map (fun p => ('\\' :: p.1, p.2))
    | '/' => (parseJString rest).map (fun p => ('/' :: p.1, p.2))
    | 'b' => (parseJString rest).map (fun p => (Char.ofNat 8 :: p.1, p.2))
    | 'f' => (parseJString rest).map (fun p => (Char.ofNat 12 :: p.1, p.2))
    | 'n' => (parseJString rest).map (fun p => ('\n' :: p.1, p.2))
    | 'r' => (parseJString rest).map (fun p => (Char.ofNat 13 :: p.1, p.2))
    | 't' => (parseJString rest).map (fun p => ('\t' :: p.1, p.2))
    | 'u' =>
      match rest with
      | h1 :: h2 :: h3 :: h4 :: rest' => do
        let v1 ← hexVal h1
        let v2 ← hexVal h2
        let v3 ← hexVal h3
        let v4 ← hexVal h4
        let p ← parseJString rest'
        some (Char.ofNat (((v1 * 16 + v2) * 16 + v3) * 16 + v4) :: p.1, p.2)
      | _ => none
    | _ => none
  | c :: rest =>
    if c.toNat < 32 then none
    else (parseJString rest).map (fun p => (c :: p.1, p.2))

/-- Recursive-descent mode: a single value, array elements, or object
members (`first` marks the position right after the opening bracket where
an immediate closer is legal). -/
inductive PMode where
  | value
  | elems (first : Bool)
  | members (first : Bool)

inductive PRes where
  | val (j : JValue)
  | list (xs : List JValue)
  | kvs (l : List (Str × JValue))

/-- The JSON grammar of `serde_json::from_str`, structural on a fuel
counter that the wrapper seeds generously enough to never run out. -/
def parseAny : Nat → PMode → Str → Option (PRes × Str)
  | 0, _, _ => none
  | fuel + 1, .value, s =>
    match skipWs s with
    | 'n' :: 'u' :: 'l' :: 'l' :: rest => some (.val .null, rest)
    | 't' :: 'r' :: 'u' :: 'e' :: rest => some (.val (.bool true), rest)
    | 'f' :: 'a' :: 'l' :: 's' :: 'e' :: rest => some (.val (.bool false), rest)
    | '"' :: rest => (parseJString rest).map (fun p => (.val (.str p.1), p.2))
    | '[' :: rest =>
      match parseAny fuel (.elems true) rest with
      | some (.list xs, rest') => some (.val (.arr xs), rest')
      | _ => none
    | '{' :: rest =>
      match parseAny fuel (.members true) rest with
      | some (.kvs l, rest') => some (.val (.obj l), rest')
      | _ => none
    | rest => (parseNumber rest).map (fun p => (.val (.num p.1), p.2))
  | fuel + 1, .elems first, s =>
    match skipWs s with
    | ']' :: rest => if first then some (.list [], rest) else none
    | s1 =>
      match parseAny fuel .value s1 with
      | some (.val v, rest) =>
        match skipWs rest with
        | ',' :: rest2 =>
          match parseAny fuel (.elems false) rest2 with
          | some (.list xs, rest3) => some (.list (v :: xs), rest3)
          | _ => none
        | ']' :: rest2 => some (.list [v], rest2)
        | _ => none
      | _ => none
  | fuel + 1, .members first, s =>
    match skipWs s with
    | '}' :: rest => if first then some (.kvs [], rest) else none
    | '"' :: rest =>
      match parseJString rest with
      | some (k, rest1) =>
        match skipWs rest1 with
        | ':' :: rest2 =>
          match parseAny fuel .value rest2 with
          | some (.val v, rest3) =>
            match skipWs rest3 with
            | ',' :: rest4 =>
              match parseAny fuel (.members false) rest4 with
              | some (.kvs l, rest5) => some (.kvs ((k, v) :: l), rest5)
              | _ => none
            | '}' :: rest4 => some (.kvs [(k, v)], rest4)
            | _ => none
          | _ => none
        | _ => none
      | _ => none
    | _ => none

/-- `serde_json::from_str::<serde_json::Value>`: one value, with only
whitespace allowed around it. -/
def jsonParse (s : Str) : Option JValue :=
  match parseAny (2 * s.length + 2) .value s with
  | some (.val v, rest) => if skipWs rest = [] then some v else none
  | _ => none

mutual

/-- `json_to_tera_value` (`src/variables.rs:115-149`).  The `Number` arm
mirrors the source's cascade: `as_i64` success gives an integer
(`TValue.int`); otherwise a finite `as_f64` result stays a number
(`TValue.float`, since `Number::from_f64` succeeds on every finite value)
and a non-finite one becomes `Null`.  The `Object` arm's round-trip
through a `HashMap` is modelled as the identity on the association list
(iteration order of a `HashMap` is unspecified; the claims below only
look keys up). -/
def json_to_tera_value : JValue → TValue
  | .null => .null
  | .bool b => .bool b
  | .num (.int i) => .int i
  | .num (.finite m e) => .float m e
  | .num .nonfinite => .null
  | .str s => .str s
  | .arr xs => .arr (jsonArrToTera xs)
  | .obj kvs => .obj (jsonObjToTera kvs)

def jsonArrToTera : List JValue → List TValue
  | [] => []
  | x :: xs => json_to_tera_value x :: jsonArrToTera xs

def jsonObjToTera : List (Str × JValue) → List (Str × TValue)
  | [] => []
  | (k, v) :: rest => (k, json_to_tera_value v) :: jsonObjToTera rest

end

/-- Rust `str::parse::<i64>`: optional sign, at least one digit, nothing
else, within the `i64` range. -/
def parse_i64 (s : Str) : Option Int :=
  let (sgn, s1) : Int × Str := match s with
    | '+' :: r => (1, r)
    | '-' :: r => (-1, r)
    | _ => (1, s)
  if s1 = [] ∨ ¬ s1.all Char.isDigit then none
  else
    let n : Int := sgn * digitsToNat s1
    if -(2 ^ 63) ≤ n ∧ n ≤ 2 ^ 63 - 1 then some n else none

/-- Rust `str::parse::<f64>`: optional sign, then (case-insensitively)
`inf`/`infinity`/`nan`, or decimal digits with an optional point and
exponent.  Finite results are the exact decimal, canonicalized. -/
def parse_f64 (s : Str) : Option JNum :=
  let (neg, s1) : Bool × Str := match s with
    | '+' :: r => (false, r)
    | '-' :: r => (true, r)
    | _ => (false, s)
  let low := s1.map Char.toLower
  if low = strL "inf" ∨ low = strL "infinity" ∨ low = strL "nan" then some .nonfinite
  else
    let (ids, s2) := takeDigits s1
    let (fds, s3) : Str × Str := match s2 with
      | '.' :: r => takeDigits r
      | _ => ([], s2)
    if ids = [] ∧ fds = [] then none
    else
      match s3 with
      | [] => some (mkFinite neg (ids ++ fds) (-(fds.length : Int)))
      | c :: rest =>
        if c = 'e' ∨ c = 'E' then
          let (es, rest1) : Int × Str := match rest with
            | '+' :: r => (1, r)
            | '-' :: r => (-1, r)
            | _ => (1, rest)
          let (ds, r) := takeDigits rest1
          if ds = [] ∨ r ≠ [] then none
          else some (mkFinite neg (ids ++ fds) (es * digitsToNat ds - fds.length))
        else none

/-- Rust `str::parse::<bool>`: exactly the literals `true` / `false`. -/
def parse_bool (s : Str) : Option Bool :=
  if s = strL "true" then some true
  else if s = strL "false" then some false
  else none

/-- `string_to_tera_value` (`src/variables.rs:384-412`): JSON first, then
`i64`, then finite `f64` (a non-finite parse falls through), then `bool`,
then the string itself. -/
def string_to_tera_value (value : Str) : TValue :=
  match jsonParse value with
  | some json_value => json_to_tera_value json_value
  | none =>
    match parse_i64 value with
    | some int_val => .int int_val
    | none =>
      match parse_f64 value with
      | some (.finite m e) => .float m e
      | _ =>
        match parse_bool value with
        | some bool_val => .bool bool_val
        | none => .str value

/-! ### Nested-path builder and merger

The source indexes a `parts: Vec<&str>` with a cursor `index`; the models
below carry the suffix `parts[index..]` instead, which is never empty at
any call site (`key_path.split('.')` is never empty, and every recursive
call keeps at least one segment).  The empty-suffix arm of each function
is the out-of-range case, unreachable in the source (`parts[index + 1]`
would panic there). -/

/-- `build_nested_object` (`src/variables.rs:245-259`), on `parts[index..]`. -/
def build_nested_object : List Str → TValue → TValue
  | [_], value => value
  | _ :: next_part :: rest, value =>
    .obj [(next_part, build_nested_object (next_part :: rest) value)]
  | [], value => value

/-- `merge_nested_value` (`src/variables.rs:262-296`), on `parts[index..]`. -/
def merge_nested_value (obj : Namespace) : List Str → TValue → Namespace
  | [current_part], value => mapInsert obj current_part value
  | current_part :: next :: rest, value =>
    match mapGet obj current_part with
    | some (.obj existing_obj) =>
      mapInsert obj current_part
        (.obj (merge_nested_value existing_obj (next :: rest) value))
    | some _ =>
      mapInsert obj current_part (build_nested_object (current_part :: next :: rest) value)
    | none =>
      mapInsert obj current_part (build_nested_object (current_part :: next :: rest) value)
  | [], _ => obj

/-- `insert_nested_variable` (`src/variables.rs:209-242`). -/
def insert_nested_variable (vars : Namespace) (key_path : Str) (value : TValue) :
    Namespace :=
  match splitChar key_path '.' with
  | [single] => mapInsert vars single value
  | root :: next :: rest =>
    match mapGet vars root with
    | some (.obj existing_obj) =>
      mapInsert vars root (.obj (merge_nested_value existing_obj (next :: rest) value))
    | some _ => mapInsert vars root (build_nested_object (root :: next :: rest) value)
    | none => mapInsert vars root (build_nested_object (root :: next :: rest) value)
  | [] => vars

/-- Lookup of a chain of segments inside a `TValue`: follows object fields
segment by segment (used to state the nested get-put law). -/
def tvGet : TValue → List Str → Option TValue
  | v, [] => some v
  | .obj m, k :: rest =>
    match mapGet m k with
    | some w => tvGet w rest
    | none => none
  | _, _ :: _ => none

/-- Lookup of a nonempty segment path starting at the namespace. -/
def nsPathGet (vars : Namespace) : List Str → Option TValue
  | [] => none
  | k :: rest =>
    match mapGet vars k with
    | some w => tvGet w rest
    | none => none

/-! ### The three assembler passes -/

/-- Rust `str::trim`, restricted to the ASCII whitespace the claims use. -/
def trimStr (s : Str) : Str :=
  ((s.dropWhile Char.isWhitespace).reverse.dropWhile Char.isWhitespace).reverse

/-- `load_env_variables` (`src/variables.rs:70-85`), for an explicitly
supplied `--env` list.  The process environment (`std::env::var`) is the
injected read-only capability `lookup`; an `Err` from `std::env::var`
(the name being unbound) skips the name.  The source always returns
`Ok(())`, so no error type appears. -/
def load_env_variables (vars : Namespace) (env_vars : Str)
    (lookup : Str → Option Str) : Namespace :=
  let var_names := (splitChar env_vars ',').map trimStr
  var_names.foldl
    (fun acc var_name =>
      match lookup var_name with
      | some value =>
        mapInsert acc var_name (string_to_tera_value (unescape_value value))
      | none => acc)
    vars

/-- The insertion loop of `load_config_file` (`src/variables.rs:108-110`):
file reading and format decoding are the external config-loader
collaborator, so the pass receives the decoded `config.variables` mapping
directly. -/
def load_config_variables (vars : Namespace)
    (config : List (Str × JValue)) : Namespace :=
  config.foldl (fun acc kv => mapInsert acc kv.1 (json_to_tera_value kv.2)) vars

/-- The per-token tail of `load_cli_variables` (`src/variables.rs:159-201`):
parse the token, unescape the value, coerce it, then insert (nested when
the key contains a dot). -/
def processTokens (vars : Namespace) : List Str → Except VErr Namespace
  | [] => .ok vars
  | single_var :: more =>
    match parse_single single_var with
    | .error e => .error e
    | .ok (key, value_with_escapes) =>
      let value := unescape_value value_with_escapes
      let tera_value := string_to_tera_value value
      let vars' :=
        if key.contains '.' then insert_nested_variable vars key tera_value
        else mapInsert vars key tera_value
      processTokens vars' more

/-- `load_cli_variables` (`src/variables.rs:151-205`): each `-D` argument
is split on unescaped commas, then each token is processed in order;
`VErr.sliceFault` models the Rust panic reachable inside
`split_unescaped`. -/
def load_cli_variables (vars : Namespace) : List Str → Except VErr Namespace
  | [] => .ok vars
  | var :: more =>
    match split_unescaped var ',' with
    | none => .error .sliceFault
    | some var_parts =>
      match processTokens vars var_parts with
      | .error e => .error e
      | .ok vars' => load_cli_variables vars' more

/-- `collect_variables` (`src/variables.rs:16-33`): environment pass (only
when `--env` was given), then config-file pass (only when a config path
was given, received here as the decoded mapping), then CLI pass. -/
def collect_variables (env : Option Str) (lookup : Str → Option Str)
    (config : Option (List (Str × JValue))) (cli_vars : List Str) :
    Except VErr Namespace :=
  let vars : Namespace := []
  let vars := match env with
    | some env_vars => load_env_variables vars env_vars lookup
    | none => vars
  let vars := match config with
    | some cfg => load_config_variables vars cfg
    | none => vars
  load_cli_variables vars cli_vars

/-! ### Reference forms used to state claims

These definitions follow the words of the specification (not the source);
they exist to be compared with the source-translated functions above. -/

/-- Reference splitter, following the spec's words for the tokenizer: walk
the characters once, tracking the escape flag and the two depth counters,
cut at each unescaped delimiter at counter value zero, and always keep the
final remainder.  Depth arithmetic is the source's (`i32` with
`saturating_sub`). -/
def refSplitCore : Str → Char → Bool → Int → Int → Str → List Str
  | [], _, _, _, _, cur => [cur]
  | c :: rest, d, esc, bk, br, cur =>
    if esc then refSplitCore rest d false bk br (cur ++ [c])
    else if c = '\\' then refSplitCore rest d true bk br (cur ++ [c])
    else if c = '[' then refSplitCore rest d esc (bk + 1) br (cur ++ [c])
    else if c = ']' then refSplitCore rest d esc (i32SatSubOne bk) br (cur ++ [c])
    else if c = '{' then refSplitCore rest d esc bk (br + 1) (cur ++ [c])
    else if c = '}' then refSplitCore rest d esc bk (i32SatSubOne br) (cur ++ [c])
    else if c = d ∧ bk = 0 ∧ br = 0 then cur :: refSplitCore rest d esc bk br []
    else refSplitCore rest d esc bk br (cur ++ [c])

/-- Drop a final empty segment when at least one split occurred (the
amended trailing-remainder rule forced by the source). -/
def dropTrailingEmpty (l : List Str) : List Str :=
  if l.getLast? = some ([] : Str) ∧ 2 ≤ l.length then l.dropLast else l

/-- The reference tokenization of the amended C3. -/
def refSplit (s : Str) (d : Char) : List Str :=
  dropTrailingEmpty (refSplitCore s d false 0 0 [])

/-- Whether a token contains an unescaped `=` (the separator the key/value
parser looks for), by the same escape-flag scan as the source. -/
def hasUnescapedEq : Str → Bool → Bool
  | [], _ => false
  | c :: rest, esc =>
    if esc then hasUnescapedEq rest false
    else if c = '\\' then hasUnescapedEq rest true
    else if c = '=' then true
    else hasUnescapedEq rest esc

/-! ### Basic lemmas and sanity checks -/

theorem mapGet_insert_self (m : Namespace) (k : Str) (v : TValue) :
    mapGet (mapInsert m k v) k = some v := by
  induction m with
  | nil => simp [mapInsert, mapGet]
  | cons hd tl ih =>
    obtain ⟨k', w⟩ := hd
    by_cases h : k' = k
    · simp [mapInsert, h, mapGet]
    · simp [mapInsert, h, mapGet, ih]

theorem mapGet_insert_ne (m : Namespace) (k k' : Str) (v : TValue) (h : k ≠ k') :
    mapGet (mapInsert m k v) k' = mapGet m k' := by
  induction m with
  | nil => simp [mapInsert, mapGet, h]
  | cons hd tl ih =>
    obtain ⟨k0, w⟩ := hd
    by_cases h0 : k0 = k
    · subst h0
      simp [mapInsert, mapGet, h]
    · simp [mapInsert, h0, mapGet, ih]

theorem splitChar_ne_nil (s : Str) (sep : Char) : splitChar s sep ≠ [] := by
  induction s with
  | nil => simp [splitChar]
  | cons c rest ih =>
    by_cases h : c = sep
    · simp [splitChar, h]
    · simp only [splitChar, if_neg h]
      cases hrec : splitChar rest sep with
      | nil => simp
      | cons p ps => simp

example : split_unescaped (strL "a=1,b=2") ',' = some [strL "a=1", strL "b=2"] := by rfl
example : split_unescaped (strL "") ',' = some [strL ""] := by rfl
example : split_unescaped (strL "a,") ',' = some [strL "a"] := by rfl
example : split_unescaped (strL "a=[1,2],b") ',' = some [strL "a=[1,2]", strL "b"] := by rfl
example : split_unescaped (strL "]a,b") ',' = some [strL "]a,b"] := by rfl
example : split_unescaped (strL "éé,,") ',' = none := by rfl
example : unescape_value (strL "Hello\\,world") = strL "Hello,world" := by rfl
example : unescape_value (strL "a\\xb") = strL "a\\xb" := by rfl
example : unescape_value (strL "ab\\") = strL "ab\\" := by rfl
example : jsonParse (strL "[1,2]") =
    some (.arr [.num (.int 1), .num (.int 2)]) := by rfl
example : jsonParse (strL "3.14") = some (.num (.finite 314 (-2))) := by rfl
example : jsonParse (strL "true") = some (.bool true) := by rfl
example : jsonParse (strL "hello") = none := by rfl
example : jsonParse (strL "\"hi\"") = some (.str (strL "hi")) := by rfl
example : json_to_tera_value (.arr [.num (.int 1), .num .nonfinite]) =
    .arr [.int 1, .null] := by rfl
example : string_to_tera_value (strL "3.14") = .float 314 (-2) := by rfl
example : string_to_tera_value (strL "true") = .bool true := by rfl
example : string_to_tera_value (strL "42") = .int 42 := by rfl
example : string_to_tera_value (strL "hello") = .str (strL "hello") := by rfl
example : string_to_tera_value (strL "[1,2]") = .arr [.int 1, .int 2] := by rfl
example : string_to_tera_value (strL "inf") = .str (strL "inf") := by rfl
example : string_to_tera_value (strL "cli_value") = .str (strL "cli_value") := by rfl
example : parse_single (strL "a=b") = .ok (strL "a", strL "b") := by rfl
example : parse_single (strL "a=") = .ok (strL "a", strL "") := by rfl
example : (parse_single (strL "novaluehere")).isOk = false := by rfl
example : (parse_single (strL "=x")).isOk = false := by rfl
example : insert_nested_variable [] (strL "foo.bar") (.int 42) =
    [(strL "foo", .obj [(strL "bar", .int 42)])] := by rfl
example :
    insert_nested_variable
      (insert_nested_variable [] (strL "foo.bar") (.int 1)) (strL "foo.baz") (.int 2) =
    [(strL "foo", .obj [(strL "bar", .int 1), (strL "baz", .int 2)])] := by rfl
example :
    collect_variables (some (strL "X"))
      (fun n => if n = strL "X" then some (strL "env_value") else none)
      (some [(strL "X", .str (strL "config_value"))])
      [strL "X=cli_value"] =
    .ok [(strL "X", .str (strL "cli_value"))] := by rfl
example :
    load_cli_variables [] [strL "a=1,items=[1,2,3],b=2"] =
    .ok [(strL "a", .int 1), (strL "items", .arr [.int 1, .int 2, .int 3]),
         (strL "b", .int 2)] := by rfl

/-! ### Nested insertion: lookup lemmas -/

/-- Looking a freshly built nested chain up along its own path reaches the
inserted leaf. -/
theorem tvGet_build : ∀ (l : List Str) (v : TValue), l ≠ [] →
    tvGet (build_nested_object l v) l.tail = some v
  | [_], v, _ => by simp [build_nested_object, tvGet]
  | c :: c2 :: rest, v, _ => by
    have ih := tvGet_build (c2 :: rest) v (by simp)
    simp only [build_nested_object, List.tail_cons, tvGet, mapGet, if_pos rfl]
    exact ih

/-- Looking a merged object up along the merged path reaches the inserted
leaf, whatever was there before. -/
theorem tvGet_merge : ∀ (m : Namespace) (l : List Str) (v : TValue), l ≠ [] →
    tvGet (.obj (merge_nested_value m l v)) l = some v
  | m, [c], v, _ => by
    simp [merge_nested_value, tvGet, mapGet_insert_self]
  | m, c :: c2 :: rest, v, _ => by
    cases hm : mapGet m c with
    | none =>
      have hb := tvGet_build (c :: c2 :: rest) v (by simp)
      simp only [merge_nested_value, hm, tvGet, mapGet_insert_self, List.tail_cons] at *
      exact hb
    | some w =>
      cases w with
      | obj existing =>
        have ih := tvGet_merge existing (c2 :: rest) v (by simp)
        simp only [merge_nested_value, hm, tvGet, mapGet_insert_self]
        exact ih
      | null =>
        have hb := tvGet_build (c :: c2 :: rest) v (by simp)
        simp only [merge_nested_value, hm, tvGet, mapGet_insert_self, List.tail_cons] at *
        exact hb
      | bool b =>
        have hb := tvGet_build (c :: c2 :: rest) v (by simp)
        simp only [merge_nested_value, hm, tvGet, mapGet_insert_self, List.tail_cons] at *
        exact hb
      | int n =>
        have hb := tvGet_build (c :: c2 :: rest) v (by simp)
        simp only [merge_nested_value, hm, tvGet, mapGet_insert_self, List.tail_cons] at *
        exact hb
      | float mm ee =>
        have hb := tvGet_build (c :: c2 :: rest) v (by simp)
        simp only [merge_nested_value, hm, tvGet, mapGet_insert_self, List.tail_cons] at *
        exact hb
      | str s =>
        have hb := tvGet_build (c :: c2 :: rest) v (by simp)
        simp only [merge_nested_value, hm, tvGet, mapGet_insert_self, List.tail_cons] at *
        exact hb
      | arr xs =>
        have hb := tvGet_build (c :: c2 :: rest) v (by simp)
        simp only [merge_nested_value, hm, tvGet, mapGet_insert_self, List.tail_cons] at *
        exact hb

/-- Inserting a two-segment dotted key: the result always binds the root to
an object whose leaf segment holds the value, and when the root was already
an object the new object is exactly the old one with the leaf inserted. -/
theorem insert_nested_two (vars : Namespace) (key r b : Str) (v : TValue)
    (hs : splitChar key '.' = [r, b]) :
    ∃ m, insert_nested_variable vars key v = mapInsert vars r (.obj m) ∧
      mapGet m b = some v ∧
      (∀ m0, mapGet vars r = some (.obj m0) → m = mapInsert m0 b v) := by
  have key_eq : insert_nested_variable vars key v
      = match mapGet vars r with
        | some (.obj existing) => mapInsert vars r (.obj (merge_nested_value existing [b] v))
        | some _ => mapInsert vars r (.obj [(b, v)])
        | none => mapInsert vars r (.obj [(b, v)]) := by
    unfold insert_nested_variable
    rw [hs]
    rfl
  rw [key_eq]
  cases hm : mapGet vars r with
  | none =>
    exact ⟨[(b, v)], rfl, by simp [mapGet], fun m0 h0 => by simp at h0⟩
  | some w =>
    cases w with
    | obj existing =>
      refine ⟨mapInsert existing b v, rfl, mapGet_insert_self _ _ _, ?_⟩
      intro m0 h0
      injection h0 with h1
      injection h1 with h2
      rw [h2]
    | null => exact ⟨[(b, v)], rfl, by simp [mapGet], fun m0 h0 => by simp at h0⟩
    | bool bb => exact ⟨[(b, v)], rfl, by simp [mapGet], fun m0 h0 => by simp at h0⟩
    | int n => exact ⟨[(b, v)], rfl, by simp [mapGet], fun m0 h0 => by simp at h0⟩
    | float mm ee => exact ⟨[(b, v)], rfl, by simp [mapGet], fun m0 h0 => by simp at h0⟩
    | str s => exact ⟨[(b, v)], rfl, by simp [mapGet], fun m0 h0 => by simp at h0⟩
    | arr xs => exact ⟨[(b, v)], rfl, by simp [mapGet], fun m0 h0 => by simp at h0⟩

/-! ### Claim theorems -/

/-- C1: nested-path insertion is sibling-preserving: inserting a dotted key
whose root is already bound to an Object merges recursively, and
`merge_nested_value` leaves every key other than the current path segment
untouched at each level; inserting `foo.bar` then `foo.baz` (into any
namespace, with any values) leaves both `bar` and `baz` bound under `foo`,
and inserting `foo.bar=42` into an empty namespace yields
`foo ↦ Object(bar ↦ Int64 42)`. -/
theorem c1_sibling_preservation :
    (∀ (vars : Namespace) (v1 v2 : TValue),
      ∃ m,
        mapGet (insert_nested_variable
            (insert_nested_variable vars (strL "foo.bar") v1) (strL "foo.baz") v2)
          (strL "foo") = some (.obj m) ∧
        mapGet m (strL "bar") = some v1 ∧ mapGet m (strL "baz") = some v2) ∧
    (∀ (obj : Namespace) (cur : Str) (rest : List Str) (v : TValue) (k : Str),
      k ≠ cur → mapGet (merge_nested_value obj (cur :: rest) v) k = mapGet obj k) ∧
    insert_nested_variable [] (strL "foo.bar") (.int 42) =
      [(strL "foo", .obj [(strL "bar", .int 42)])] := by
  refine ⟨?_, ?_, by rfl⟩
  · intro vars v1 v2
    obtain ⟨m1, e1, hb1, _⟩ :=
      insert_nested_two vars (strL "foo.bar") (strL "foo") (strL "bar") v1 (by rfl)
    obtain ⟨m2, e2, hb2, hprev⟩ :=
      insert_nested_two (insert_nested_variable vars (strL "foo.bar") v1)
        (strL "foo.baz") (strL "foo") (strL "baz") v2 (by rfl)
    have hroot : mapGet (insert_nested_variable vars (strL "foo.bar") v1) (strL "foo")
        = some (.obj m1) := by
      rw [e1]
      exact mapGet_insert_self _ _ _
    have hm2 : m2 = mapInsert m1 (strL "baz") v2 := hprev m1 hroot
    refine ⟨m2, ?_, ?_, hb2⟩
    · rw [e2]
      exact mapGet_insert_self _ _ _
    · rw [hm2, mapGet_insert_ne _ _ _ _ (by decide)]
      exact hb1
  · intro obj cur rest v k hk
    cases rest with
    | nil =>
      simp only [merge_nested_value]
      exact mapGet_insert_ne _ _ _ _ (Ne.symm hk)
    | cons c2 rest' =>
      cases hm : mapGet obj cur with
      | none =>
        simp only [merge_nested_value, hm]
        exact mapGet_insert_ne _ _ _ _ (Ne.symm hk)
      | some w =>
        cases w <;>
          · simp only [merge_nested_value, hm]
            exact mapGet_insert_ne _ _ _ _ (Ne.symm hk)

theorem c1_sibling_preservation_witness :
    (∃ m,
      mapGet (insert_nested_variable
          (insert_nested_variable [] (strL "foo.bar") (.int 1)) (strL "foo.baz") (.int 2))
        (strL "foo") = some (.obj m) ∧
      mapGet m (strL "bar") = some (.int 1) ∧ mapGet m (strL "baz") = some (.int 2)) ∧
    mapGet (merge_nested_value [] [strL "a"] .null) (strL "b")
      = mapGet ([] : Namespace) (strL "b") :=
  ⟨c1_sibling_preservation.1 [] (.int 1) (.int 2),
   c1_sibling_preservation.2.1 [] (strL "a") [] .null (strL "b") (by decide)⟩

/-- C10: get-put law for nested insertion: immediately after inserting any
dotted key path with any value into any namespace, looking the result up
segment by segment along the full path yields exactly the inserted value,
whatever was previously bound at the root or at intermediate segments. -/
theorem c10_nested_get_put (vars : Namespace) (key_path : Str) (v : TValue) :
    nsPathGet (insert_nested_variable vars key_path v) (splitChar key_path '.')
      = some v := by
  cases hsp : splitChar key_path '.' with
  | nil => exact absurd hsp (splitChar_ne_nil _ _)
  | cons k rest0 =>
    cases rest0 with
    | nil =>
      have key_eq : insert_nested_variable vars key_path v = mapInsert vars k v := by
        unfold insert_nested_variable
        rw [hsp]
      rw [key_eq]
      simp [nsPathGet, mapGet_insert_self, tvGet]
    | cons k2 rest =>
      have key_eq : insert_nested_variable vars key_path v
          = match mapGet vars k with
            | some (.obj existing) =>
              mapInsert vars k (.obj (merge_nested_value existing (k2 :: rest) v))
            | some _ => mapInsert vars k (build_nested_object (k :: k2 :: rest) v)
            | none => mapInsert vars k (build_nested_object (k :: k2 :: rest) v) := by
        unfold insert_nested_variable
        rw [hsp]
      rw [key_eq]
      cases hm : mapGet vars k with
      | none =>
        simp only [nsPathGet, mapGet_insert_self]
        exact tvGet_build (k :: k2 :: rest) v (by simp)
      | some w =>
        cases w with
        | obj existing =>
          simp only [nsPathGet, mapGet_insert_self]
          exact tvGet_merge existing (k2 :: rest) v (by simp)
        | null =>
          simp only [nsPathGet, mapGet_insert_self]
          exact tvGet_build (k :: k2 :: rest) v (by simp)
        | bool b =>
          simp only [nsPathGet, mapGet_insert_self]
          exact tvGet_build (k :: k2 :: rest) v (by simp)
        | int n =>
          simp only [nsPathGet, mapGet_insert_self]
          exact tvGet_build (k :: k2 :: rest) v (by simp)
        | float mm ee =>
          simp only [nsPathGet, mapGet_insert_self]
          exact tvGet_build (k :: k2 :: rest) v (by simp)
        | str s =>
          simp only [nsPathGet, mapGet_insert_self]
          exact tvGet_build (k :: k2 :: rest) v (by simp)
        | arr xs =>
          simp only [nsPathGet, mapGet_insert_self]
          exact tvGet_build (k :: k2 :: rest) v (by simp)

/-- C4 (code bug): the depth counters are `i32` values decremented with
`saturating_sub`, which saturates at `i32::MIN`, not at zero: an excess
`]` at depth zero drives the counter to `-1`, so the following unescaped
delimiter is NOT at counter value zero and does not split — `"]a,b"`
tokenizes to the single segment `"]a,b"` instead of `"]a"`, `"b"`. -/
theorem c4_depth_goes_negative :
    i32SatSubOne 0 = -1 ∧
    split_unescaped (strL "]a,b") ',' = some [strL "]a,b"] ∧
    split_unescaped (strL "]a,b") ',' ≠ some [strL "]a", strL "b"] := by
  refine ⟨by rfl, by rfl, by decide⟩

/-- C5 (code bug): the tokenizer is not total on multi-byte input: the
source reads `chars[pos]` at a character index but advances `pos` by
`len_utf8` bytes and slices `&s[current_start..pos]` at those byte
offsets, so on `"éé,,"` it slices at byte offset 3, inside the second
`é` — a Rust panic (modelled as `none`). -/
theorem c5_multibyte_panic :
    split_unescaped (strL "éé,,") ',' = none := by rfl

/-- C7: type coercion tries JSON first (so `"[1,2]"` is an array, a quoted
token is its JSON string contents, and `"42"` is the `i64`-backed
`Int64 42`), then signed 64-bit integers, then finite floats (`"3.14"` is
`Float64(3.14)`, embedded as `314 × 10^-2`), then the boolean literals,
then the plain string fallback; and a non-finite number met anywhere
during JSON conversion becomes `Null` rather than an error. -/
theorem c7_coercion :
    string_to_tera_value (strL "3.14") = .float 314 (-2) ∧
    string_to_tera_value (strL "true") = .bool true ∧
    string_to_tera_value (strL "42") = .int 42 ∧
    string_to_tera_value (strL "hello") = .str (strL "hello") ∧
    string_to_tera_value (strL "[1,2]") = .arr [.int 1, .int 2] ∧
    string_to_tera_value (strL "\"hi\"") = .str (strL "hi") ∧
    json_to_tera_value (.num .nonfinite) = .null ∧
    json_to_tera_value (.obj [(strL "a", .num .nonfinite)]) = .obj [(strL "a", .null)] :=
  ⟨rfl, rfl, rfl, rfl, rfl, rfl, rfl, rfl⟩

/-- C8: the value unescaper is total, maps each `\` followed by one of the
seven special characters to that character alone, keeps any other `\c`
pair verbatim, preserves a trailing unmatched `\`, and in particular takes
`\[start\]middle\[end\]` to `[start]middle[end]`. -/
theorem c8_unescaper :
    (∀ (c : Char) (rest : Str),
      (c = '\\' ∨ c = ',' ∨ c = '=' ∨ c = '[' ∨ c = ']' ∨ c = '{' ∨ c = '}') →
      unescape_value ('\\' :: c :: rest) = c :: unescape_value rest) ∧
    (∀ (c : Char) (rest : Str),
      ¬(c = '\\' ∨ c = ',' ∨ c = '=' ∨ c = '[' ∨ c = ']' ∨ c = '{' ∨ c = '}') →
      unescape_value ('\\' :: c :: rest) = '\\' :: c :: unescape_value rest) ∧
    (∀ (c : Char) (rest : Str), c ≠ '\\' →
      unescape_value (c :: rest) = c :: unescape_value rest) ∧
    (∀ s : Str, s.contains '\\' = false → unescape_value (s ++ ['\\']) = s ++ ['\\']) ∧
    unescape_value (strL "\\[start\\]middle\\[end\\]") = strL "[start]middle[end]" := by
  refine ⟨?_, ?_, ?_, ?_, by rfl⟩
  · intro c rest h
    rw [unescape_value.eq_def]
    simp [h]
  · intro c rest h
    rw [unescape_value.eq_def]
    simp [h]
  · intro c rest h
    rw [unescape_value.eq_def]
    simp [h]
  · intro s
    induction s with
    | nil => intro _; rfl
    | cons c t ih =>
      intro hc
      simp only [List.contains_cons, Bool.or_eq_false_iff] at hc
      obtain ⟨hc1, hc2⟩ := hc
      have hcne : c ≠ '\\' := by
        intro h
        rw [h] at hc1
        simp at hc1
      simp only [List.cons_append]
      rw [show unescape_value (c :: (t ++ ['\\'])) = c :: unescape_value (t ++ ['\\']) by
        rw [unescape_value.eq_def]
        simp [hcne]]
      rw [ih hc2]

theorem c8_unescaper_witness :
    unescape_value ['\\', ','] = ',' :: unescape_value [] ∧
    unescape_value ['\\', 'x', 'q'] = '\\' :: 'x' :: unescape_value ['q'] ∧
    unescape_value ('q' :: strL "t") = 'q' :: unescape_value (strL "t") ∧
    unescape_value (strL "ab" ++ ['\\']) = strL "ab" ++ ['\\'] :=
  ⟨c8_unescaper.1 ',' [] (by decide),
   c8_unescaper.2.1 'x' ['q'] (by decide),
   c8_unescaper.2.2.1 'q' (strL "t") (by decide),
   c8_unescaper.2.2.2.1 (strL "ab") (by decide)⟩

/-- C9: the environment pass leaves the namespace unchanged at every
requested name that is unbound in the environment (and the pass as a whole
never errors — the source returns `Ok(())` unconditionally): only names the
lookup actually resolves cause an insertion. -/
theorem c9_unbound_env_name_frame (vars : Namespace) (env_vars : Str)
    (lookup : Str → Option Str) (n : Str) (h : lookup n = none) :
    mapGet (load_env_variables vars env_vars lookup) n = mapGet vars n := by
  unfold load_env_variables
  generalize (splitChar env_vars ',').map trimStr = names
  induction names generalizing vars with
  | nil => rfl
  | cons nm rest ih =>
    simp only [List.foldl_cons]
    cases hl : lookup nm with
    | none =>
      simp only [hl]
      exact ih _
    | some value =>
      simp only [hl]
      rw [ih]
      have hne : nm ≠ n := by
        intro he
        rw [he, h] at hl
        cases hl
      exact mapGet_insert_ne _ _ _ _ hne

theorem c9_unbound_env_name_frame_witness :
    (fun _ : Str => (none : Option Str)) (strL "NONEXISTENT") = none ∧
    mapGet (load_env_variables [] (strL "NONEXISTENT") (fun _ => none))
        (strL "NONEXISTENT")
      = mapGet ([] : Namespace) (strL "NONEXISTENT") :=
  ⟨rfl, c9_unbound_env_name_frame [] (strL "NONEXISTENT") (fun _ => none)
    (strL "NONEXISTENT") rfl⟩

/-- C2: assembly precedence — the assembler runs the environment pass,
then the config pass, then the CLI pass over one namespace, later passes
overwriting earlier ones for the same top-level key: whatever string the
environment binds `X` to and whatever decoded config value accompanies
`X`, applying CLI definition `X=cli_value` on top leaves
`X ↦ String "cli_value"`. -/
theorem c2_precedence (lookup : Str → Option Str) (e : Str) (j : JValue)
    (h : lookup (strL "X") = some e) :
    ∃ ns,
      collect_variables (some (strL "X")) lookup (some [(strL "X", j)])
          [strL "X=cli_value"] = .ok ns ∧
      mapGet ns (strL "X") = some (.str (strL "cli_value")) := by
  have h1 : load_env_variables [] (strL "X") lookup
      = match lookup (strL "X") with
        | some value => mapInsert [] (strL "X") (string_to_tera_value (unescape_value value))
        | none => [] := rfl
  rw [h] at h1
  refine ⟨[(strL "X", .str (strL "cli_value"))], ?_, rfl⟩
  show load_cli_variables
      (load_config_variables (load_env_variables [] (strL "X") lookup)
        [(strL "X", j)])
      [strL "X=cli_value"] = _
  rw [h1]
  rfl

theorem c2_precedence_witness :
    ∃ ns,
      collect_variables (some (strL "X"))
          (fun n => if n = strL "X" then some (strL "env_value") else none)
          (some [(strL "X", .str (strL "config_value"))])
          [strL "X=cli_value"] = .ok ns ∧
      mapGet ns (strL "X") = some (.str (strL "cli_value")) :=
  c2_precedence _ (strL "env_value") (.str (strL "config_value")) rfl

/-! ### Key/value scan lemmas (for C6) -/

theorem keyEndScan_of_not_hasEq : ∀ (l : Str) (esc : Bool),
    hasUnescapedEq l esc = false → keyEndScan l esc = byteLen l
  | [], _, _ => rfl
  | c :: rest, true, h => by
    have h' : hasUnescapedEq rest false = false := by simpa [hasUnescapedEq] using h
    have ih := keyEndScan_of_not_hasEq rest false h'
    simp [keyEndScan, byteLen, ih]
  | c :: rest, false, h => by
    by_cases hb : c = '\\'
    · subst hb
      have h' : hasUnescapedEq rest true = false := by simpa [hasUnescapedEq] using h
      have ih := keyEndScan_of_not_hasEq rest true h'
      simp [keyEndScan, byteLen, ih]
    · by_cases he : c = '='
      · subst he
        simp [hasUnescapedEq] at h
      · have h' : hasUnescapedEq rest false = false := by
          simpa [hasUnescapedEq, hb, he] using h
        have ih := keyEndScan_of_not_hasEq rest false h'
        simp [keyEndScan, byteLen, hb, he, ih]

theorem keyEndScan_of_hasEq : ∀ (l : Str) (esc : Bool),
    hasUnescapedEq l esc = true → keyEndScan l esc < byteLen l
  | [], _, h => by simp [hasUnescapedEq] at h
  | c :: rest, true, h => by
    have h' : hasUnescapedEq rest false = true := by simpa [hasUnescapedEq] using h
    have ih := keyEndScan_of_hasEq rest false h'
    simp only [keyEndScan, byteLen, if_true]
    omega
  | c :: rest, false, h => by
    by_cases hb : c = '\\'
    · subst hb
      have h' : hasUnescapedEq rest true = true := by simpa [hasUnescapedEq] using h
      have ih := keyEndScan_of_hasEq rest true h'
      simp only [keyEndScan, byteLen]
      norm_num
      omega
    · by_cases he : c = '='
      · subst he
        have hpos := Char.utf8Size_pos '='
        have h0 : keyEndScan ('=' :: rest) false = 0 := by simp [keyEndScan]
        have hbl : byteLen ('=' :: rest) = '='.utf8Size + byteLen rest := rfl
        rw [h0, hbl]
        omega
      · have h' : hasUnescapedEq rest false = true := by
          simpa [hasUnescapedEq, hb, he] using h
        have ih := keyEndScan_of_hasEq rest false h'
        have h0 : keyEndScan (c :: rest) false = c.utf8Size + keyEndScan rest false := by
          simp [keyEndScan, hb, he]
        have hbl : byteLen (c :: rest) = c.utf8Size + byteLen rest := rfl
        rw [h0, hbl]
        omega

theorem getElem_keyEndChars_of_hasEq : ∀ (l : Str) (esc : Bool),
    hasUnescapedEq l esc = true → l[keyEndChars l esc]? = some '='
  | [], _, h => by simp [hasUnescapedEq] at h
  | c :: rest, true, h => by
    have h' : hasUnescapedEq rest false = true := by simpa [hasUnescapedEq] using h
    have ih := getElem_keyEndChars_of_hasEq rest false h'
    simp only [keyEndChars, if_true, Nat.add_comm 1, List.getElem?_cons_succ]
    exact ih
  | c :: rest, false, h => by
    by_cases hb : c = '\\'
    · subst hb
      have h' : hasUnescapedEq rest true = true := by simpa [hasUnescapedEq] using h
      have ih := getElem_keyEndChars_of_hasEq rest true h'
      simp only [keyEndChars, Nat.add_comm 1, List.getElem?_cons_succ]
      simpa using ih
    · by_cases he : c = '='
      · subst he
        simp [keyEndChars]
      · have h' : hasUnescapedEq rest false = true := by
          simpa [hasUnescapedEq, hb, he] using h
        have ih := getElem_keyEndChars_of_hasEq rest false h'
        simp only [keyEndChars, if_neg hb, if_neg he, Nat.add_comm 1,
          List.getElem?_cons_succ]
        simpa [hb, he] using ih

theorem hasEq_take_keyEndChars : ∀ (l : Str) (esc : Bool),
    hasUnescapedEq l esc = true →
    hasUnescapedEq (l.take (keyEndChars l esc)) esc = false
  | [], _, h => by simp [hasUnescapedEq] at h
  | c :: rest, true, h => by
    have h' : hasUnescapedEq rest false = true := by simpa [hasUnescapedEq] using h
    have ih := hasEq_take_keyEndChars rest false h'
    simp only [keyEndChars, if_true, Nat.add_comm 1, List.take_succ_cons]
    simpa [hasUnescapedEq] using ih
  | c :: rest, false, h => by
    by_cases hb : c = '\\'
    · subst hb
      have h' : hasUnescapedEq rest true = true := by simpa [hasUnescapedEq] using h
      have ih := hasEq_take_keyEndChars rest true h'
      simp only [keyEndChars, Nat.add_comm 1, List.take_succ_cons]
      simpa [hasUnescapedEq] using ih
    · by_cases he : c = '='
      · subst he
        simp [keyEndChars, hasUnescapedEq]
      · have h' : hasUnescapedEq rest false = true := by
          simpa [hasUnescapedEq, hb, he] using h
        have ih := hasEq_take_keyEndChars rest false h'
        simp only [keyEndChars, if_neg hb, if_neg he, Nat.add_comm 1,
          List.take_succ_cons]
        simpa [hasUnescapedEq, hb, he] using ih

theorem keyEndScan_zero_cases (sv : Str) (h : keyEndScan sv false = 0) :
    sv = [] ∨ sv.head? = some '=' := by
  cases sv with
  | nil => exact Or.inl rfl
  | cons c rest =>
    by_cases hb : c = '\\'
    · subst hb
      rw [show keyEndScan ('\\' :: rest) false
          = Char.utf8Size '\\' + keyEndScan rest true by simp [keyEndScan]] at h
      have := Char.utf8Size_pos '\\'
      omega
    · by_cases he : c = '='
      · subst he
        simp
      · rw [show keyEndScan (c :: rest) false
            = c.utf8Size + keyEndScan rest false by simp [keyEndScan, hb, he]] at h
        have := Char.utf8Size_pos c
        omega

/-- C6 (amended): the key/value token parser fails, with a
`VariableParseError` naming the offending token, exactly when the token
has no unescaped `=` or its key portion is empty (separator at offset 0,
including the empty token); an empty VALUE portion is accepted (the
`key_end >= len` test cannot fire for a trailing separator).  On success
it returns the key before the first unescaped `=` and the raw value after
it: the token decomposes as `key ++ '=' :: value` with no unescaped `=`
inside the key. -/
theorem c6_kv_scan (sv : Str) :
    (parse_single sv = .error (.variableParse sv) ↔
      (hasUnescapedEq sv false = false ∨ sv.head? = some '=')) ∧
    (∀ k v, parse_single sv = .ok (k, v) →
      sv = k ++ '=' :: v ∧ hasUnescapedEq k false = false) := by
  have hC : (keyEndScan sv false = 0 ∨ keyEndScan sv false ≥ byteLen sv) ↔
      (hasUnescapedEq sv false = false ∨ sv.head? = some '=') := by
    constructor
    · rintro (h0 | hge)
      · rcases keyEndScan_zero_cases sv h0 with hnil | hhd
        · subst hnil
          exact Or.inl rfl
        · exact Or.inr hhd
      · left
        by_contra hh
        rw [Bool.not_eq_false] at hh
        exact absurd hge (not_le.mpr (keyEndScan_of_hasEq sv false hh))
    · rintro (hf | hhd)
      · right
        rw [keyEndScan_of_not_hasEq sv false hf]
      · left
        cases sv with
        | nil => cases hhd
        | cons c rest =>
          simp only [List.head?_cons, Option.some_inj] at hhd
          subst hhd
          simp [keyEndScan]
  constructor
  · by_cases hcond : keyEndScan sv false = 0 ∨ keyEndScan sv false ≥ byteLen sv
    · constructor
      · intro _
        exact hC.mp hcond
      · intro _
        unfold parse_single
        rw [if_pos hcond]
    · constructor
      · intro herr
        unfold parse_single at herr
        rw [if_neg hcond] at herr
        cases herr
      · intro hrhs
        exact absurd (hC.mpr hrhs) hcond
  · intro k v hok
    by_cases hcond : keyEndScan sv false = 0 ∨ keyEndScan sv false ≥ byteLen sv
    · exfalso
      unfold parse_single at hok
      rw [if_pos hcond] at hok
      cases hok
    · unfold parse_single at hok
      rw [if_neg hcond] at hok
      injection hok with hpair
      injection hpair with hk hv
      subst hk hv
      push_neg at hcond
      obtain ⟨h0, hlt⟩ := hcond
      have hhas : hasUnescapedEq sv false = true := by
        by_contra hh
        rw [Bool.not_eq_true] at hh
        rw [keyEndScan_of_not_hasEq sv false hh] at hlt
        exact lt_irrefl _ hlt
      have hget := getElem_keyEndChars_of_hasEq sv false hhas
      obtain ⟨hlen, hcc⟩ := List.getElem?_eq_some.mp hget
      refine ⟨?_, hasEq_take_keyEndChars sv false hhas⟩
      conv_lhs => rw [← List.take_append_drop (keyEndChars sv false) sv]
      rw [List.drop_eq_getElem_cons hlen, hcc]

/-- C6 counterexample to the claim as stated: a token whose value portion
is empty (`"a="`, separator at the final offset) does NOT fail — it parses
to key `a` and empty raw value. -/
theorem c6_counterexample :
    parse_single (strL "a=") = .ok (strL "a", strL "") ∧
    ∀ t, parse_single (strL "a=") ≠ .error (.variableParse t) := by
  refine ⟨by rfl, ?_⟩
  intro t h
  rw [show parse_single (strL "a=") = .ok (strL "a", strL "") from rfl] at h
  cases h

theorem c6_kv_scan_witness :
    strL "ab=cd" = strL "ab" ++ '=' :: strL "cd" ∧
    hasUnescapedEq (strL "ab") false = false :=
  (c6_kv_scan (strL "ab=cd")).2 (strL "ab") (strL "cd") rfl

/-! ### Single-byte (ASCII) slicing lemmas (for the amended C3) -/

theorem byteLen_ascii : ∀ s : Str, (∀ c ∈ s, c.utf8Size = 1) → byteLen s = s.length
  | [], _ => rfl
  | c :: rest, h => by
    have hc : c.utf8Size = 1 := h c (by simp)
    have ih := byteLen_ascii rest (fun x hx => h x (by simp [hx]))
    simp [byteLen, hc, ih]
    omega

theorem dropBytes_ascii : ∀ (s : Str) (a : Nat), (∀ c ∈ s, c.utf8Size = 1) →
    a ≤ s.length → dropBytes s a = some (s.drop a)
  | _, 0, _, _ => by simp [dropBytes]
  | [], _ + 1, _, ha => by simp at ha
  | c :: rest, a + 1, h, ha => by
    have hc : c.utf8Size = 1 := h c (by simp)
    have ih := dropBytes_ascii rest a (fun x hx => h x (by simp [hx])) (by simpa using ha)
    simp [dropBytes, hc, ih]

theorem takeBytes_ascii : ∀ (s : Str) (b : Nat), (∀ c ∈ s, c.utf8Size = 1) →
    b ≤ s.length → takeBytes s b = some (s.take b)
  | _, 0, _, _ => by simp [takeBytes]
  | [], _ + 1, _, hb => by simp at hb
  | c :: rest, b + 1, h, hb => by
    have hc : c.utf8Size = 1 := h c (by simp)
    have ih := takeBytes_ascii rest b (fun x hx => h x (by simp [hx])) (by simpa using hb)
    simp [takeBytes, hc, ih]

theorem byteSlice_ascii (s : Str) (a b : Nat) (h : ∀ c ∈ s, c.utf8Size = 1)
    (hab : a ≤ b) (hb : b ≤ s.length) :
    byteSlice s a b = some ((s.drop a).take (b - a)) := by
  unfold byteSlice
  rw [if_pos hab, dropBytes_ascii s a h (le_trans hab hb)]
  have hdrop_ascii : ∀ c ∈ s.drop a, c.utf8Size = 1 :=
    fun c hc => h c (List.mem_of_mem_drop hc)
  have hlen : b - a ≤ (s.drop a).length := by
    rw [List.length_drop]
    omega
  simp [takeBytes_ascii (s.drop a) (b - a) hdrop_ascii hlen]

theorem take_drop_extend (s : Str) (pos cs : Nat) (h : pos < s.length) (hcs : cs ≤ pos) :
    (s.drop cs).take (pos + 1 - cs) =
      (s.drop cs).take (pos - cs) ++ [s.get ⟨pos, h⟩] := by
  have h1 : pos + 1 - cs = (pos - cs) + 1 := by omega
  rw [h1, List.take_succ]
  congr 1
  rw [List.getElem?_drop]
  have h2 : cs + (pos - cs) = pos := by omega
  rw [h2, List.getElem?_eq_getElem h]
  simp [List.get_eq_getElem]

theorem get_of_drop_cons (s : Str) (pos : Nat) (c : Char) (rest' : Str)
    (hd : s.drop pos = c :: rest') (h : pos < s.length) : s.get ⟨pos, h⟩ = c := by
  have h0 : (s.drop pos)[0]? = some c := by rw [hd]; simp
  rw [List.getElem?_drop, Nat.add_zero, List.getElem?_eq_getElem h] at h0
  simpa [List.get_eq_getElem] using h0

theorem drop_succ_of_drop_cons (s : Str) (pos : Nat) (c : Char) (rest' : Str)
    (hd : s.drop pos = c :: rest') : s.drop (pos + 1) = rest' := by
  have h1 : s.drop (pos + 1) = (s.drop pos).drop 1 := by
    rw [List.drop_drop, Nat.add_comm]
  rw [h1, hd]
  rfl

theorem lt_length_of_drop_cons (s : Str) (pos : Nat) (c : Char) (rest' : Str)
    (hd : s.drop pos = c :: rest') : pos < s.length := by
  by_contra hle
  push_neg at hle
  rw [List.drop_eq_nil_of_le hle] at hd
  cases hd

/-- The tokenizer loop coincides with the spec-side reference splitter on
single-byte input, from any reachable loop state. -/
theorem splitGo_ascii_refine (s : Str) (d : Char) (hA : ∀ c ∈ s, c.utf8Size = 1) :
    ∀ (rest : Str) (fuel pos cs : Nat) (esc : Bool) (bk br : Int) (acc : List Str),
      s.drop pos = rest → cs ≤ pos → pos ≤ s.length →
      (acc = [] → cs = 0) → s.length - pos < fuel →
      splitGo s d fuel pos cs esc bk br acc =
        some (dropTrailingEmpty
          (acc ++ refSplitCore rest d esc bk br ((s.drop cs).take (pos - cs)))) := by
  intro rest
  induction rest with
  | nil =>
    intro fuel pos cs esc bk br acc hd hcs hpos hinv hfuel
    have hple : s.length ≤ pos := List.drop_eq_nil_iff.mp hd
    have hpe : pos = s.length := le_antisymm hpos hple
    subst hpe
    cases fuel with
    | zero => omega
    | succ f =>
      simp only [splitGo]
      rw [dif_neg (lt_irrefl _), byteLen_ascii s hA]
      simp only [refSplitCore]
      by_cases hcl : cs < s.length
      · rw [if_pos hcl, byteSlice_ascii s cs s.length hA (le_of_lt hcl) le_rfl]
        have hcur_ne : (s.drop cs).take (s.length - cs) ≠ [] := by
          apply List.ne_nil_of_length_pos
          rw [List.length_take, List.length_drop]
          omega
        rw [show dropTrailingEmpty
            (acc ++ [(s.drop cs).take (s.length - cs)])
            = acc ++ [(s.drop cs).take (s.length - cs)] by
          rw [dropTrailingEmpty,
            if_neg (fun hcond => hcur_ne (by
              have := hcond.1
              rw [List.getLast?_concat] at this
              exact Option.some_inj.mp this))]]
        rfl
      · have hce : cs = s.length := by omega
        rw [if_neg hcl]
        have hcur : (s.drop cs).take (s.length - cs) = [] := by
          rw [hce]
          simp
        rw [hcur]
        by_cases hacc : acc = []
        · subst hacc
          rw [if_pos rfl]
          have hs0 : s.length = 0 := by
            have := hinv rfl
            omega
          have hs : s = [] := List.length_eq_zero.mp hs0
          subst hs
          rw [show dropTrailingEmpty ([] ++ [([] : Str)]) = [([] : Str)] by
            rw [dropTrailingEmpty]
            simp]
        · rw [if_neg hacc]
          rw [show dropTrailingEmpty (acc ++ [([] : Str)]) = acc by
            rw [dropTrailingEmpty,
              if_pos ⟨List.getLast?_concat _, by
                rw [List.length_append]
                have : acc.length ≠ 0 := fun h0 => hacc (List.length_eq_zero.mp h0)
                simp
                omega⟩,
              List.dropLast_concat]]
  | cons c rest' ih =>
    intro fuel pos cs esc bk br acc hd hcs hpos hinv hfuel
    have hlt : pos < s.length := lt_length_of_drop_cons s pos c rest' hd
    have hc : s.get ⟨pos, hlt⟩ = c := get_of_drop_cons s pos c rest' hd hlt
    have hsz : c.utf8Size = 1 := hA c (by rw [← hc]; exact List.get_mem s pos hlt)
    have hd' : s.drop (pos + 1) = rest' := drop_succ_of_drop_cons s pos c rest' hd
    have hext : (s.drop cs).take (pos + 1 - cs)
        = (s.drop cs).take (pos - cs) ++ [c] := by
      rw [take_drop_extend s pos cs hlt hcs, hc]
    cases fuel with
    | zero => omega
    | succ f =>
      simp only [splitGo]
      rw [dif_pos hlt, hc, hsz]
      simp only [refSplitCore]
      by_cases hesc : esc = true
      · rw [if_pos hesc, if_pos hesc,
          ih f (pos + 1) cs false bk br acc hd' (by omega) (by omega) hinv (by omega),
          hext]
      · rw [if_neg hesc, if_neg hesc]
        by_cases hbs : c = '\\'
        · rw [if_pos hbs, if_pos hbs,
            ih f (pos + 1) cs true bk br acc hd' (by omega) (by omega) hinv (by omega),
            hext]
        · rw [if_neg hbs, if_neg hbs]
          by_cases hob : c = '['
          · rw [if_pos hob, if_pos hob,
              ih f (pos + 1) cs esc (bk + 1) br acc hd' (by omega) (by omega) hinv
                (by omega),
              hext]
          · rw [if_neg hob, if_neg hob]
            by_cases hcb : c = ']'
            · rw [if_pos hcb, if_pos hcb,
                ih f (pos + 1) cs esc (i32SatSubOne bk) br acc hd' (by omega) (by omega)
                  hinv (by omega),
                hext]
            · rw [if_neg hcb, if_neg hcb]
              by_cases hobr : c = '{'
              · rw [if_pos hobr, if_pos hobr,
                  ih f (pos + 1) cs esc bk (br + 1) acc hd' (by omega) (by omega) hinv
                    (by omega),
                  hext]
              · rw [if_neg hobr, if_neg hobr]
                by_cases hcbr : c = '}'
                · rw [if_pos hcbr, if_pos hcbr,
                    ih f (pos + 1) cs esc bk (i32SatSubOne br) acc hd' (by omega)
                      (by omega) hinv (by omega),
                    hext]
                · rw [if_neg hcbr, if_neg hcbr]
                  by_cases hdl : c = d ∧ bk = 0 ∧ br = 0
                  · rw [if_pos hdl, if_pos hdl,
                      byteSlice_ascii s cs pos hA hcs (le_of_lt hlt)]
                    show splitGo s d f (pos + 1) (pos + 1) esc bk br
                        (acc ++ [(s.drop cs).take (pos - cs)]) = _
                    rw [ih f (pos + 1) (pos + 1) esc bk br
                        (acc ++ [(s.drop cs).take (pos - cs)]) hd' (by omega) (by omega)
                        (by simp) (by omega)]
                    rw [Nat.sub_self, List.take_zero]
                    simp
                  · rw [if_neg hdl, if_neg hdl,
                      ih f (pos + 1) cs esc bk br acc hd' (by omega) (by omega) hinv
                        (by omega),
                      hext]

/-- C3 counterexample to the claim as stated: an input ending in an
unescaped delimiter does NOT produce a final empty segment — the trailing
remainder is pushed only when nonempty, so `"a,"` yields the single
segment `"a"`, not `"a"` followed by `""`. -/
theorem c3_counterexample :
    split_unescaped (strL "a,") ',' = some [strL "a"] ∧
    split_unescaped (strL "a,") ',' ≠ some [strL "a", strL ""] := by
  exact ⟨by rfl, by decide⟩

/-- C3 (amended): on inputs of single-byte characters, the tokenizer
splits exactly at unescaped delimiter occurrences where both depth
counters (with the source's signed saturating arithmetic) equal zero,
yielding the delimiter-separated pieces; the trailing remainder segment is
kept only when it is nonempty (with the whole original string as the sole
element when no split occurred, even for the empty string). -/
theorem c3_tokenizer_amended (s : Str) (d : Char) (hA : ∀ c ∈ s, c.utf8Size = 1) :
    split_unescaped s d = some (refSplit s d) := by
  unfold split_unescaped refSplit
  have h := splitGo_ascii_refine s d hA s (s.length + 1) 0 0 false 0 0 []
    rfl (le_refl 0) (Nat.zero_le _) (fun _ => rfl) (by omega)
  simpa using h

theorem c3_tokenizer_amended_witness :
    (∀ c ∈ strL "a=1,b=2", c.utf8Size = 1) ∧
    split_unescaped (strL "a=1,b=2") ',' = some (refSplit (strL "a=1,b=2") ',') :=
  ⟨by decide, c3_tokenizer_amended (strL "a=1,b=2") ',' (by decide)⟩

end Shinkansen
